import Mathlib

/-!
Verification of the calculation and recommendation engine of the
`dca-analyzer` repository, shallowly embedded in Lean 4.

The embedding translates the three engine modules:

* `src/lib/calculations.ts` — `calculatePositionStats`
* `src/lib/strategies.ts` — `generatePresetWeights`, `generateExponentialWeights`
* `src/lib/advice.ts` — `analyzeStrategyAdvice`

JavaScript numbers are modelled as exact rationals (`ℚ`); `Array.filter`,
`map`, `reduce` become the corresponding `List` operations; the insertion-order
`Map` of `advice.ts` becomes an association list; early `return null` becomes
`Option`.  All definitions are executable, so concrete runs of the engine can
be settled by `decide`/`rfl`.
-/

set_option linter.unusedVariables false

/-- Data model: `Allocation` from `src/lib/types.ts`: one limit order, a price level and
the fraction of capital assigned to it. -/
structure Allocation where
  price : ℚ
  weight : ℚ
  deriving DecidableEq, Repr

/-- Data model: `PositionMetrics` from `src/lib/types.ts`. -/
structure PositionMetrics where
  filledPosition : ℚ
  totalCost : ℚ
  avgCost : ℚ
  valueAtTarget : ℚ
  profit : ℚ
  roi : ℚ
  deriving DecidableEq, Repr

/-- The filled subset: `allocations.filter((l) => l.price >= reboundPrice)`
(`src/lib/calculations.ts`, line 48). -/
def filledLevels (allocations : List Allocation) (reboundPrice : ℚ) : List Allocation :=
  allocations.filter (fun l => decide (l.price ≥ reboundPrice))

/-- Embedding of `calculatePositionStats` from `src/lib/calculations.ts` (lines 42–72).
`reduce`-sums are written as `(…map…).sum`. -/
def calculatePositionStats (allocations : List Allocation)
    (reboundPrice targetPrice totalSize : ℚ) : PositionMetrics :=
  let filled := filledLevels allocations reboundPrice
  if filled.isEmpty then
    { filledPosition := 0, totalCost := 0, avgCost := 0,
      valueAtTarget := 0, profit := 0, roi := 0 }
  else
    let filledPosition := (filled.map (fun l => l.weight)).sum * totalSize
    let totalCost := (filled.map (fun l => l.weight * l.price)).sum * totalSize
    let avgCost := totalCost / filledPosition
    let valueAtTarget := filledPosition * targetPrice
    let profit := valueAtTarget - totalCost
    let roi := profit / totalCost * 100
    { filledPosition := filledPosition, totalCost := totalCost, avgCost := avgCost,
      valueAtTarget := valueAtTarget, profit := profit, roi := roi }

/-- Result record of `generatePresetWeights` from `src/lib/strategies.ts`. -/
structure PresetWeights where
  pyramid : List ℚ
  uniform : List ℚ
  inverted : List ℚ
  deriving DecidableEq, Repr

/-- Embedding of `generatePresetWeights` from `src/lib/strategies.ts` (lines 5–21).
`Array.from({length: n}, (_, i) => i + 1)` is `(List.range n).map (·+1)`;
the in-place write `uniform[levelCount-1] = …` is `List.set`. -/
def generatePresetWeights (levelCount : Nat) : PresetWeights :=
  let pyramidWeights := (List.range levelCount).map (fun i : Nat => ((i : ℚ) + 1))
  let pyramidSum := pyramidWeights.sum
  let pyramid := pyramidWeights.map (fun w => w / pyramidSum)
  let inverted := pyramid.reverse
  let uniformBase := 1 / (levelCount : ℚ)
  let uniform := (List.replicate levelCount uniformBase).set (levelCount - 1)
    (1 - uniformBase * ((levelCount : ℚ) - 1))
  { pyramid := pyramid, uniform := uniform, inverted := inverted }

/-- Constant `EXPONENTIAL_BASE = 1.8` from `src/lib/strategies.ts` (line 25). -/
def EXPONENTIAL_BASE : ℚ := 9 / 5

/-- Embedding of `generateExponentialWeights` from `src/lib/strategies.ts` (lines 27–33). -/
def generateExponentialWeights (levelCount : Nat) : List ℚ :=
  let weights := (List.range levelCount).map
    (fun i : Nat => EXPONENTIAL_BASE ^ (levelCount - 1 - i))
  let sum := weights.sum
  weights.map (fun w => w / sum)

/-- Data model: `ComparableStrategy` from `src/lib/types.ts`. -/
structure ComparableStrategy where
  name : String
  allocations : List Allocation
  deriving DecidableEq, Repr

/-- One segment of a `StrategyAdvice` (`src/lib/types.ts`). -/
structure Segment where
  rangeHigh : ℚ
  rangeLow : ℚ
  isLast : Bool
  winner : String
  deriving DecidableEq, Repr

/-- The `{name, count}` winner record of a `StrategyAdvice`. -/
structure BestStrategy where
  name : String
  count : Nat
  deriving DecidableEq, Repr

/-- Data model: `StrategyAdvice` from `src/lib/types.ts`. -/
structure StrategyAdvice where
  zeroZonePrice : ℚ
  segments : List Segment
  bestStrategy : Option BestStrategy
  coveragePct : ℤ
  deriving DecidableEq, Repr

/-- Descending insertion: auxiliary for the embedded
`[...].sort((a, b) => b - a)` of `src/lib/advice.ts` (lines 20–22). -/
def insertDesc (x : ℚ) : List ℚ → List ℚ
  | [] => [x]
  | y :: ys => if y ≤ x then x :: y :: ys else y :: insertDesc x ys

/-- Descending sort of a list of numbers, the extensional behaviour of
`[...].sort((a, b) => b - a)` on `number[]`. -/
def sortDesc : List ℚ → List ℚ
  | [] => []
  | x :: xs => insertDesc x (sortDesc xs)

/-- Embedding of `activeLevels` of `src/lib/advice.ts` (lines 20–22): filter the positive
price levels, then sort descending. -/
def activeLevelsOf (priceLevels : List ℚ) : List ℚ :=
  sortDesc (priceLevels.filter (fun p => decide (0 < p)))

/-- A strategy's profit at a test price (`src/lib/advice.ts`, lines 40–44). -/
def strategyProfit (s : ComparableStrategy) (testPrice targetPrice totalSize : ℚ) : ℚ :=
  (calculatePositionStats s.allocations testPrice targetPrice totalSize).profit

/-- The `profits` array built at one test price (`src/lib/advice.ts`,
lines 40–44): name/profit pair per strategy, in input order. -/
def levelProfits (strategies : List ComparableStrategy)
    (testPrice targetPrice totalSize : ℚ) : List (String × ℚ) :=
  strategies.map (fun s => (s.name, strategyProfit s testPrice targetPrice totalSize))

/-- Embedding of `Math.max(...profits.map((p) => p.profit))` (`src/lib/advice.ts`, line 46);
only called with a non-empty strategy list, the `[]` case is unreachable. -/
def maxOfProfits : List (String × ℚ) → ℚ
  | [] => 0
  | p :: rest => rest.foldl (fun m q => max m q.2) p.2

/-- Winner selection at one level (`src/lib/advice.ts`, lines 49–52): among
the maximum-profit ties prefer the strategy named `"custom"`, else the first
tie in input order (`winners.find(...) ?? winners[0]`). -/
def pickWinner (ps : List (String × ℚ)) : Option (String × ℚ) :=
  let m := maxOfProfits ps
  let winners := ps.filter (fun p => decide (p.2 = m))
  match winners.find? (fun w => decide (w.1 = "custom")) with
  | some w => some w
  | none => winners.head?

/-- The `levelResults` array (`src/lib/advice.ts`, lines 36–59): for each
active level, skip it when `maxProfit ≤ 0`, else record the winning name. -/
def levelResults (strategies : List ComparableStrategy) (activeLevels : List ℚ)
    (targetPrice totalSize : ℚ) : List (ℚ × String) :=
  activeLevels.filterMap (fun testPrice =>
    let ps := levelProfits strategies testPrice targetPrice totalSize
    if maxOfProfits ps ≤ 0 then none
    else
      match pickWinner ps with
      | some w => some (testPrice, w.1)
      | none => none)

/-- Embedding of `winCounts.set(name, (winCounts.get(name) || 0) + 1)` on an
insertion-ordered association list (`src/lib/advice.ts`, line 54). -/
def bumpCount : List (String × Nat) → String → List (String × Nat)
  | [], name => [(name, 1)]
  | (n, c) :: rest, name =>
    if n = name then (n, c + 1) :: rest else (n, c) :: bumpCount rest name

/-- The `winCounts` map accumulated over the recorded level results, with
JavaScript `Map` insertion-order iteration made explicit. -/
def winCounts (lrs : List (ℚ × String)) : List (String × Nat) :=
  lrs.foldl (fun m lr => bumpCount m lr.2) []

/-- The `bestStrategy` fold (`src/lib/advice.ts`, lines 82–88): start from
`{name: "", count: 0}` and replace only on a strictly greater count. -/
def bestOf (wcs : List (String × Nat)) : String × Nat :=
  wcs.foldl (fun best e => if best.2 < e.2 then e else best) ("", 0)

/-- The intermediate `MergedSegment` record (`src/lib/advice.ts`, lines 62–66). -/
structure MSeg where
  highPrice : ℚ
  lowPrice : ℚ
  winner : String
  deriving DecidableEq, Repr

/-- Body of the merge loop (`src/lib/advice.ts`, lines 69–80): extend the
current segment on an equal winner, else emit it and start a new one. -/
def mergeGo (cur : MSeg) : List (ℚ × String) → List MSeg
  | [] => [cur]
  | lr :: rest =>
    if lr.2 = cur.winner then mergeGo { cur with lowPrice := lr.1 } rest
    else cur :: mergeGo { highPrice := lr.1, lowPrice := lr.1, winner := lr.2 } rest

/-- The full merge of consecutive equal-winner level results into segments. -/
def mergeSegs : List (ℚ × String) → List MSeg
  | [] => []
  | lr :: rest => mergeGo { highPrice := lr.1, lowPrice := lr.1, winner := lr.2 } rest

/-- Embedding of `activeLevels.indexOf(x)`; all uses are at members, where it returns the
index of the first occurrence. -/
def idxOf (x : ℚ) : List ℚ → Nat
  | [] => 0
  | a :: as => if a = x then 0 else idxOf x as + 1

/-- JavaScript `Math.round`: round half toward positive infinity. -/
def jsRound (x : ℚ) : ℤ := ⌊x + 1 / 2⌋

/-- Coverage contribution of one merged segment (`src/lib/advice.ts`,
lines 96–106). -/
def segCoverage (activeLevels : List ℚ) (bottomMin bottomMax bottomStep : ℚ)
    (seg : MSeg) : ℚ :=
  let lowIdx := idxOf seg.lowPrice activeLevels
  let isLastLevel := lowIdx = activeLevels.length - 1
  let lowerBound := if isLastLevel then bottomMin
    else activeLevels.getD (lowIdx + 1) 0 + bottomStep
  let clampedHigh := min seg.highPrice bottomMax
  let clampedLow := max lowerBound bottomMin
  max 0 ((clampedHigh - clampedLow) / bottomStep + 1)

/-- The coverage-percentage block (`src/lib/advice.ts`, lines 90–110): zero
unless `bestStrategy.name` is truthy (non-empty). -/
def coveragePctOf (activeLevels : List ℚ) (segs : List MSeg) (bestName : String)
    (bottomMin bottomMax bottomStep : ℚ) : ℤ :=
  if bestName = "" then 0
  else
    let bestCoverage := ((segs.filter (fun s => decide (s.winner = bestName))).map
      (segCoverage activeLevels bottomMin bottomMax bottomStep)).sum
    let totalSteps := (bottomMax - bottomMin) / bottomStep + 1
    jsRound (bestCoverage / totalSteps * 100)

/-- The final `segments` mapping (`src/lib/advice.ts`, lines 114–119):
`isLast` marks the entry whose index is `length - 1`. -/
def toSegments (segs : List MSeg) : List Segment :=
  segs.enum.map (fun p =>
    { rangeHigh := p.2.highPrice, rangeLow := p.2.lowPrice,
      isLast := p.1 == segs.length - 1, winner := p.2.winner })

/-- Embedding of `analyzeStrategyAdvice` from `src/lib/advice.ts` (lines 6–123).  The
function is total (the source never throws); `null` is `none`. -/
def analyzeStrategyAdvice (strategies : List ComparableStrategy)
    (priceLevels : List ℚ) (targetPrice totalSize bottomMin bottomMax bottomStep : ℚ) :
    Option StrategyAdvice :=
  if strategies.isEmpty then none
  else
    let activeLevels := activeLevelsOf priceLevels
    if activeLevels.isEmpty then none
    else
      let highestLevel := activeLevels.headD 0
      let lrs := levelResults strategies activeLevels targetPrice totalSize
      let segs := mergeSegs lrs
      let best := bestOf (winCounts lrs)
      some
        { zeroZonePrice := highestLevel,
          segments := toSegments segs,
          bestStrategy := if best.1 = "" then none else some ⟨best.1, best.2⟩,
          coveragePct := coveragePctOf activeLevels segs best.1 bottomMin bottomMax bottomStep }

/-! ### Helper lemmas about the embedded operations -/

theorem insertDesc_ne_nil (x : ℚ) (l : List ℚ) : insertDesc x l ≠ [] := by
  cases l with
  | nil => simp [insertDesc]
  | cons y ys => simp only [insertDesc]; split <;> simp

theorem mem_insertDesc {y x : ℚ} {l : List ℚ} :
    y ∈ insertDesc x l ↔ y = x ∨ y ∈ l := by
  induction l with
  | nil => simp [insertDesc]
  | cons z zs ih =>
    simp only [insertDesc]
    split
    · simp
    · simp [ih]; tauto

theorem mem_sortDesc {y : ℚ} {l : List ℚ} : y ∈ sortDesc l ↔ y ∈ l := by
  induction l with
  | nil => simp [sortDesc]
  | cons x xs ih => simp [sortDesc, mem_insertDesc, ih]

theorem sortDesc_eq_nil_iff {l : List ℚ} : sortDesc l = [] ↔ l = [] := by
  cases l with
  | nil => simp [sortDesc]
  | cons x xs => simp [sortDesc, insertDesc_ne_nil]

theorem pairwise_insertDesc {x : ℚ} {l : List ℚ}
    (h : l.Pairwise (fun a b => b ≤ a)) :
    (insertDesc x l).Pairwise (fun a b => b ≤ a) := by
  induction l with
  | nil => simp [insertDesc]
  | cons y ys ih =>
    rw [List.pairwise_cons] at h
    simp only [insertDesc]
    split
    · rename_i hyx
      refine List.Pairwise.cons ?_ (List.Pairwise.cons h.1 h.2)
      intro z hz
      rcases List.mem_cons.mp hz with hz | hz
      · exact hz ▸ hyx
      · exact le_trans (h.1 z hz) hyx
    · rename_i hyx
      refine List.Pairwise.cons ?_ (ih h.2)
      intro z hz
      rcases mem_insertDesc.mp hz with hz | hz
      · exact hz ▸ le_of_not_le hyx
      · exact h.1 z hz

theorem sortDesc_pairwise (l : List ℚ) :
    (sortDesc l).Pairwise (fun a b => b ≤ a) := by
  induction l with
  | nil => simp [sortDesc]
  | cons x xs ih => exact pairwise_insertDesc ih

theorem mem_filledLevels {l : Allocation} {allocations : List Allocation}
    {reboundPrice : ℚ} :
    l ∈ filledLevels allocations reboundPrice ↔
      l ∈ allocations ∧ l.price ≥ reboundPrice := by
  simp [filledLevels, List.mem_filter]

/-! ### C1, C7 — `calculatePositionStats` -/

/-- C1.  `calculatePositionStats` treats an allocation as filled iff
`allocation.price ≥ thresholdPrice` (inclusive), and on a non-empty filled
set returns `filledPosition = totalSize * Σ weight`,
`totalCost = totalSize * Σ (weight * price)`, `avgCost = totalCost /
filledPosition`, `valueAtTarget = filledPosition * targetPrice`,
`profit = valueAtTarget - totalCost`, `roi = profit / totalCost * 100`;
at the spec's example `[{90,0.2},{80,0.3},{70,0.5}]`, threshold 75, target
100, size 1000 it returns `(500, 42000, 84, 50000, 8000, 400/21)` with
`roi` within `10⁻³` of `19.048`. -/
theorem C1_position_stats (allocations : List Allocation)
    (thresholdPrice targetPrice totalSize : ℚ)
    (h : filledLevels allocations thresholdPrice ≠ []) :
    (∀ l : Allocation, l ∈ filledLevels allocations thresholdPrice ↔
        l ∈ allocations ∧ l.price ≥ thresholdPrice) ∧
    ((calculatePositionStats allocations thresholdPrice targetPrice totalSize).filledPosition
        = totalSize * ((filledLevels allocations thresholdPrice).map (fun l => l.weight)).sum ∧
      (calculatePositionStats allocations thresholdPrice targetPrice totalSize).totalCost
        = totalSize * ((filledLevels allocations thresholdPrice).map (fun l => l.weight * l.price)).sum ∧
      (calculatePositionStats allocations thresholdPrice targetPrice totalSize).avgCost
        = (calculatePositionStats allocations thresholdPrice targetPrice totalSize).totalCost
          / (calculatePositionStats allocations thresholdPrice targetPrice totalSize).filledPosition ∧
      (calculatePositionStats allocations thresholdPrice targetPrice totalSize).valueAtTarget
        = (calculatePositionStats allocations thresholdPrice targetPrice totalSize).filledPosition
          * targetPrice ∧
      (calculatePositionStats allocations thresholdPrice targetPrice totalSize).profit
        = (calculatePositionStats allocations thresholdPrice targetPrice totalSize).valueAtTarget
          - (calculatePositionStats allocations thresholdPrice targetPrice totalSize).totalCost ∧
      (calculatePositionStats allocations thresholdPrice targetPrice totalSize).roi
        = (calculatePositionStats allocations thresholdPrice targetPrice totalSize).profit
          / (calculatePositionStats allocations thresholdPrice targetPrice totalSize).totalCost * 100) ∧
    calculatePositionStats [⟨90, 2/10⟩, ⟨80, 3/10⟩, ⟨70, 5/10⟩] 75 100 1000
      = ⟨500, 42000, 84, 50000, 8000, 400/21⟩ ∧
    |(calculatePositionStats [⟨90, 2/10⟩, ⟨80, 3/10⟩, ⟨70, 5/10⟩] 75 100 1000).roi
      - 19048/1000| < 1/1000 := by
  refine ⟨fun l => mem_filledLevels, ?_, ?_, ?_⟩
  · have hne : (filledLevels allocations thresholdPrice).isEmpty = false := by
      simpa [List.isEmpty_iff] using h
    simp only [calculatePositionStats, hne, Bool.false_eq_true, if_false]
    exact ⟨mul_comm _ _, mul_comm _ _, trivial, trivial, trivial, trivial⟩
  · norm_num [calculatePositionStats, filledLevels, List.filter]
  · norm_num [calculatePositionStats, filledLevels, List.filter, abs_lt]

theorem C1_position_stats_witness :
    calculatePositionStats [⟨90, 2/10⟩, ⟨80, 3/10⟩, ⟨70, 5/10⟩] 75 100 1000
      = ⟨500, 42000, 84, 50000, 8000, 400/21⟩ :=
  (C1_position_stats [⟨90, 2/10⟩, ⟨80, 3/10⟩, ⟨70, 5/10⟩] 75 100 1000
    (List.ne_nil_of_mem (show (⟨90, 2/10⟩ : Allocation) ∈
      filledLevels [⟨90, 2/10⟩, ⟨80, 3/10⟩, ⟨70, 5/10⟩] 75 from
        mem_filledLevels.mpr ⟨by simp, by norm_num⟩))).2.2.1

/-- C7.  When every allocation's price is strictly below the threshold,
`calculatePositionStats` returns the all-zero metrics record (in particular
no division by zero is performed and every field is a well-defined rational). -/
theorem C7_empty_fill_zero_metrics (allocations : List Allocation)
    (thresholdPrice targetPrice totalSize : ℚ)
    (h : ∀ l ∈ allocations, l.price < thresholdPrice) :
    calculatePositionStats allocations thresholdPrice targetPrice totalSize
      = ⟨0, 0, 0, 0, 0, 0⟩ := by
  have hfil : filledLevels allocations thresholdPrice = [] := by
    simp only [filledLevels, List.filter_eq_nil_iff]
    intro a ha
    simpa using not_le.mpr (h a ha)
  simp [calculatePositionStats, hfil]

theorem C7_empty_fill_zero_metrics_witness :
    calculatePositionStats [⟨50, 1/2⟩, ⟨40, 1/2⟩] 60 100 1000 = ⟨0, 0, 0, 0, 0, 0⟩ :=
  C7_empty_fill_zero_metrics [⟨50, 1/2⟩, ⟨40, 1/2⟩] 60 100 1000
    (by norm_num)

/-! ### C2 — null semantics of `analyzeStrategyAdvice` -/

/-- C2.  `analyzeStrategyAdvice` (a total function in this embedding — the
source never throws) returns `null` iff the strategy list is empty or no
price level is active (`price > 0`); otherwise it returns a non-null advice. -/
theorem C2_null_iff (strategies : List ComparableStrategy) (priceLevels : List ℚ)
    (targetPrice totalSize bottomMin bottomMax bottomStep : ℚ) :
    analyzeStrategyAdvice strategies priceLevels targetPrice totalSize
        bottomMin bottomMax bottomStep = none ↔
      strategies = [] ∨ ∀ p ∈ priceLevels, ¬ (0 < p) := by
  rcases strategies with _ | ⟨s, ss⟩
  · simp [analyzeStrategyAdvice]
  · have hne : (s :: ss).isEmpty = false := rfl
    constructor
    · intro hnone
      simp only [analyzeStrategyAdvice, hne, Bool.false_eq_true, if_false] at hnone
      by_cases hempty : (activeLevelsOf priceLevels).isEmpty = true
      · right
        rw [List.isEmpty_iff] at hempty
        rw [activeLevelsOf, sortDesc_eq_nil_iff, List.filter_eq_nil_iff] at hempty
        intro p hp
        simpa using hempty p hp
      · simp [hempty] at hnone
    · rintro (h | h)
      · exact absurd h (List.cons_ne_nil s ss)
      · have hempty : activeLevelsOf priceLevels = [] := by
          rw [activeLevelsOf, sortDesc_eq_nil_iff, List.filter_eq_nil_iff]
          intro p hp
          simpa using h p hp
        simp [analyzeStrategyAdvice, hne, hempty]

/-! ### C8 — weight generation -/

theorem sum_map_div (l : List ℚ) (c : ℚ) :
    (l.map (fun w => w / c)).sum = l.sum / c := by
  induction l with
  | nil => simp
  | cons x xs ih => simp [ih, add_div]

theorem pyramid_weights_sum (n : Nat) :
    ((List.range n).map (fun i : Nat => ((i : ℚ) + 1))).sum = n * (n + 1) / 2 := by
  induction n with
  | zero => simp
  | succ m ih =>
    rw [List.range_succ, List.map_append, List.sum_append, ih]
    simp only [List.map_cons, List.map_nil, List.sum_cons, List.sum_nil]
    push_cast
    ring

theorem set_replicate_last (m : Nat) (b v : ℚ) :
    (List.replicate (m + 1) b).set m v = List.replicate m b ++ [v] := by
  induction m with
  | zero => simp
  | succ k ih =>
    have h1 : List.replicate (k + 2) b = b :: List.replicate (k + 1) b := rfl
    have h2 : (b :: List.replicate (k + 1) b).set (k + 1) v
        = b :: (List.replicate (k + 1) b).set k v := rfl
    rw [h1, h2, ih]
    rfl

/-- C8.  For `levelCount ≥ 1`, in the exact rational semantics: the three
preset arrays and the exponential array each sum to exactly 1;
`pyramid[i] = (i+1) / (1 + 2 + ⋯ + levelCount)`; and the uniform array is
`1/levelCount` at every index but the last, which is
`1 - (levelCount-1)/levelCount`. -/
theorem C8_weight_sums (n : Nat) (h : 1 ≤ n) :
    (generatePresetWeights n).pyramid.sum = 1 ∧
    (generatePresetWeights n).uniform.sum = 1 ∧
    (generatePresetWeights n).inverted.sum = 1 ∧
    (generateExponentialWeights n).sum = 1 ∧
    (∀ i, i < n → (generatePresetWeights n).pyramid.getD i 0
        = ((i : ℚ) + 1) / ((n : ℚ) * ((n : ℚ) + 1) / 2)) ∧
    (∀ i, i < n - 1 → (generatePresetWeights n).uniform.getD i 0 = 1 / (n : ℚ)) ∧
    (generatePresetWeights n).uniform.getD (n - 1) 0
        = 1 - ((n : ℚ) - 1) / (n : ℚ) := by
  obtain ⟨m, rfl⟩ : ∃ m, n = m + 1 := ⟨n - 1, (Nat.succ_pred_eq_of_pos h).symm⟩
  have hsum : ((List.range (m + 1)).map (fun i : Nat => ((i : ℚ) + 1))).sum
      = ((m : ℚ) + 1) * (((m : ℚ) + 1) + 1) / 2 := by
    rw [pyramid_weights_sum]; push_cast; ring
  have hsum_ne : ((List.range (m + 1)).map (fun i : Nat => ((i : ℚ) + 1))).sum ≠ 0 := by
    rw [hsum]; positivity
  have hpyr : (generatePresetWeights (m + 1)).pyramid.sum = 1 := by
    simp only [generatePresetWeights, sum_map_div]
    exact div_self hsum_ne
  have hset : (generatePresetWeights (m + 1)).uniform
      = List.replicate m (1 / ((m : ℚ) + 1))
        ++ [1 - 1 / ((m : ℚ) + 1) * (((m : ℚ) + 1) - 1)] := by
    simp only [generatePresetWeights]
    rw [Nat.add_sub_cancel, set_replicate_last]
    push_cast
    ring_nf
  have huni : (generatePresetWeights (m + 1)).uniform.sum = 1 := by
    rw [hset]
    simp only [List.sum_append, List.sum_replicate, List.sum_cons, List.sum_nil,
      smul_eq_mul]
    have : ((m : ℚ) + 1) ≠ 0 := by positivity
    field_simp
  refine ⟨hpyr, huni, ?_, ?_, ?_, ?_, ?_⟩
  · have hrev : (generatePresetWeights (m + 1)).inverted
        = (generatePresetWeights (m + 1)).pyramid.reverse := rfl
    rw [hrev, List.sum_reverse]
    exact hpyr
  · have hpos : ∀ x ∈ (List.range (m + 1)).map
        (fun i : Nat => EXPONENTIAL_BASE ^ (m + 1 - 1 - i)), 0 < x := by
      intro x hx
      obtain ⟨i, _, rfl⟩ := List.mem_map.mp hx
      have hb : (0 : ℚ) < EXPONENTIAL_BASE := by norm_num [EXPONENTIAL_BASE]
      positivity
    have hne : ((List.range (m + 1)).map
        (fun i : Nat => EXPONENTIAL_BASE ^ (m + 1 - 1 - i))) ≠ [] := by
      simp [List.range_succ]
    simp only [generateExponentialWeights, sum_map_div]
    exact div_self (ne_of_gt (List.sum_pos _ hpos hne))
  · intro i hi
    simp [generatePresetWeights, List.getD_eq_getElem?_getD,
      List.getElem?_range hi, hsum]
  · intro i hi
    have hi' : i < m := by omega
    rw [hset, List.getD_eq_getElem?_getD, List.getElem?_append,
      if_pos (by simpa using hi'), List.getElem?_replicate_of_lt hi']
    simp only [Option.getD_some]
    push_cast
    ring
  · rw [hset, Nat.add_sub_cancel, List.getD_eq_getElem?_getD,
      List.getElem?_append_right (by simp), List.length_replicate]
    simp only [Nat.sub_self, List.getElem?_cons_zero, Option.getD_some]
    have : ((m : ℚ) + 1) ≠ 0 := by positivity
    field_simp

/-! ### C5 — per-level winner selection -/

theorem foldl_max_le (l : List (String × ℚ)) (a : ℚ) :
    a ≤ l.foldl (fun m q => max m q.2) a := by
  induction l generalizing a with
  | nil => exact le_refl a
  | cons x xs ih => exact le_trans (le_max_left a x.2) (ih (max a x.2))

theorem foldl_max_mem_le (l : List (String × ℚ)) (a : ℚ) :
    ∀ q ∈ l, q.2 ≤ l.foldl (fun m q => max m q.2) a := by
  induction l generalizing a with
  | nil => intro q hq; cases hq
  | cons x xs ih =>
    intro q hq
    rcases List.mem_cons.mp hq with rfl | hq
    · exact le_trans (le_max_right a q.2) (foldl_max_le xs (max a q.2))
    · exact ih (max a x.2) q hq

theorem foldl_max_attained (l : List (String × ℚ)) (a : ℚ) :
    l.foldl (fun m q => max m q.2) a = a ∨
      ∃ q ∈ l, l.foldl (fun m q => max m q.2) a = q.2 := by
  induction l generalizing a with
  | nil => exact Or.inl rfl
  | cons x xs ih =>
    rcases ih (max a x.2) with h | ⟨q, hq, h⟩
    · rcases le_total a x.2 with hax | hax
      · refine Or.inr ⟨x, List.mem_cons_self x xs, ?_⟩
        simpa [List.foldl_cons, max_eq_right hax] using h
      · exact Or.inl (by simpa [List.foldl_cons, max_eq_left hax] using h)
    · exact Or.inr ⟨q, List.mem_cons_of_mem x hq, h⟩

theorem le_maxOfProfits (ps : List (String × ℚ)) :
    ∀ q ∈ ps, q.2 ≤ maxOfProfits ps := by
  cases ps with
  | nil => intro q hq; cases hq
  | cons p rest =>
    intro q hq
    rcases List.mem_cons.mp hq with rfl | hq
    · exact foldl_max_le rest q.2
    · exact foldl_max_mem_le rest p.2 q hq

theorem maxOfProfits_attained (ps : List (String × ℚ)) (h : ps ≠ []) :
    ∃ q ∈ ps, q.2 = maxOfProfits ps := by
  cases ps with
  | nil => exact absurd rfl h
  | cons p rest =>
    rcases foldl_max_attained rest p.2 with hh | ⟨q, hq, hh⟩
    · exact ⟨p, List.mem_cons_self p rest, hh.symm⟩
    · exact ⟨q, List.mem_cons_of_mem p hq, hh.symm⟩

theorem levelResults_mem {strategies : List ComparableStrategy} {lvls : List ℚ}
    {t ts : ℚ} {pr : ℚ × String} (h : pr ∈ levelResults strategies lvls t ts) :
    pr.1 ∈ lvls ∧ 0 < maxOfProfits (levelProfits strategies pr.1 t ts) ∧
      ∃ w, pickWinner (levelProfits strategies pr.1 t ts) = some w ∧ w.1 = pr.2 := by
  simp only [levelResults, List.mem_filterMap] at h
  obtain ⟨a, ha, hfa⟩ := h
  by_cases hle : maxOfProfits (levelProfits strategies a t ts) ≤ 0
  · simp [hle] at hfa
  · cases hw : pickWinner (levelProfits strategies a t ts) with
    | none => simp [hle, hw] at hfa
    | some w =>
      simp only [hle, if_false, hw] at hfa
      cases hfa
      exact ⟨ha, lt_of_not_le hle, ⟨w, hw, rfl⟩⟩

/-- C5.  At each evaluated level, the winner returned by the selection of
`analyzeStrategyAdvice` always achieves the maximum profit; among the tied
maximum-profit strategies the one named `"custom"` is chosen whenever such a
tie member exists, and otherwise the first tied strategy in input order is
chosen; every recorded level result is produced by exactly this selection. -/
theorem C5_custom_tie_preference (strategies : List ComparableStrategy)
    (lvls : List ℚ) (testPrice targetPrice totalSize : ℚ)
    (hne : strategies ≠ []) :
    (∃ w, pickWinner (levelProfits strategies testPrice targetPrice totalSize) = some w ∧
        w.2 = maxOfProfits (levelProfits strategies testPrice targetPrice totalSize)) ∧
    ((∃ v ∈ (levelProfits strategies testPrice targetPrice totalSize).filter
          (fun p => decide (p.2 = maxOfProfits (levelProfits strategies testPrice targetPrice totalSize))),
        v.1 = "custom") →
      ∀ w, pickWinner (levelProfits strategies testPrice targetPrice totalSize) = some w →
        w.1 = "custom") ∧
    ((∀ v ∈ (levelProfits strategies testPrice targetPrice totalSize).filter
          (fun p => decide (p.2 = maxOfProfits (levelProfits strategies testPrice targetPrice totalSize))),
        v.1 ≠ "custom") →
      pickWinner (levelProfits strategies testPrice targetPrice totalSize)
        = ((levelProfits strategies testPrice targetPrice totalSize).filter
            (fun p => decide (p.2 = maxOfProfits (levelProfits strategies testPrice targetPrice totalSize)))).head?) ∧
    (∀ pr ∈ levelResults strategies lvls targetPrice totalSize,
      ∃ w, pickWinner (levelProfits strategies pr.1 targetPrice totalSize) = some w ∧
        w.1 = pr.2) := by
  have hps : levelProfits strategies testPrice targetPrice totalSize ≠ [] := by
    simpa [levelProfits] using hne
  obtain ⟨q, hqmem, hqval⟩ :=
    maxOfProfits_attained (levelProfits strategies testPrice targetPrice totalSize) hps
  have hqwin : q ∈ (levelProfits strategies testPrice targetPrice totalSize).filter
      (fun p => decide (p.2 = maxOfProfits (levelProfits strategies testPrice targetPrice totalSize))) :=
    List.mem_filter.mpr ⟨hqmem, by simpa using hqval⟩
  have hwinne : (levelProfits strategies testPrice targetPrice totalSize).filter
      (fun p => decide (p.2 = maxOfProfits (levelProfits strategies testPrice targetPrice totalSize))) ≠ [] :=
    List.ne_nil_of_mem hqwin
  refine ⟨?_, ?_, ?_, ?_⟩
  · simp only [pickWinner]
    cases hf : ((levelProfits strategies testPrice targetPrice totalSize).filter
        (fun p => decide (p.2 = maxOfProfits (levelProfits strategies testPrice targetPrice totalSize)))).find?
        (fun w => decide (w.1 = "custom")) with
    | some w =>
      refine ⟨w, rfl, ?_⟩
      have hmem := List.mem_of_find?_eq_some hf
      simpa using (List.mem_filter.mp hmem).2
    | none =>
      cases hh : ((levelProfits strategies testPrice targetPrice totalSize).filter
          (fun p => decide (p.2 = maxOfProfits (levelProfits strategies testPrice targetPrice totalSize)))).head? with
      | none => exact absurd (List.head?_eq_none_iff.mp hh) hwinne
      | some w =>
        refine ⟨w, rfl, ?_⟩
        have hmem : w ∈ (levelProfits strategies testPrice targetPrice totalSize).filter
            (fun p => decide (p.2 = maxOfProfits (levelProfits strategies testPrice targetPrice totalSize))) :=
          List.mem_of_mem_head? hh
        simpa using (List.mem_filter.mp hmem).2
  · rintro ⟨v, hv, hvname⟩ w hw
    simp only [pickWinner] at hw
    cases hf : ((levelProfits strategies testPrice targetPrice totalSize).filter
        (fun p => decide (p.2 = maxOfProfits (levelProfits strategies testPrice targetPrice totalSize)))).find?
        (fun w => decide (w.1 = "custom")) with
    | some u =>
      rw [hf] at hw
      cases hw
      simpa using List.find?_some hf
    | none =>
      have := List.find?_eq_none.mp hf v hv
      simp [hvname] at this
  · intro hnone
    simp only [pickWinner]
    have hf : ((levelProfits strategies testPrice targetPrice totalSize).filter
        (fun p => decide (p.2 = maxOfProfits (levelProfits strategies testPrice targetPrice totalSize)))).find?
        (fun w => decide (w.1 = "custom")) = none := by
      apply List.find?_eq_none.mpr
      intro v hv
      simpa using hnone v hv
    rw [hf]
  · intro pr hpr
    exact (levelResults_mem hpr).2.2

theorem C5_custom_tie_preference_witness :
    (∃ w, pickWinner (levelProfits
        [⟨"pyramid", [⟨80, 1⟩]⟩, ⟨"custom", [⟨80, 1⟩]⟩] 80 100 1000) = some w ∧
      w.2 = maxOfProfits (levelProfits
        [⟨"pyramid", [⟨80, 1⟩]⟩, ⟨"custom", [⟨80, 1⟩]⟩] 80 100 1000)) ∧
    ((∃ v ∈ (levelProfits [⟨"pyramid", [⟨80, 1⟩]⟩, ⟨"custom", [⟨80, 1⟩]⟩] 80 100 1000).filter
          (fun p => decide (p.2 = maxOfProfits (levelProfits
            [⟨"pyramid", [⟨80, 1⟩]⟩, ⟨"custom", [⟨80, 1⟩]⟩] 80 100 1000))),
        v.1 = "custom") →
      ∀ w, pickWinner (levelProfits
          [⟨"pyramid", [⟨80, 1⟩]⟩, ⟨"custom", [⟨80, 1⟩]⟩] 80 100 1000) = some w →
        w.1 = "custom") := by
  have h := C5_custom_tie_preference
    [⟨"pyramid", [⟨80, 1⟩]⟩, ⟨"custom", [⟨80, 1⟩]⟩] [80] 80 100 1000 (by simp)
  exact ⟨h.1, h.2.1⟩

/-! ### Merge-loop structure lemmas (shared by C4, C9, C10) -/

theorem mergeGo_ne_nil : ∀ (rest : List (ℚ × String)) (cur : MSeg),
    mergeGo cur rest ≠ []
  | [], cur => by simp [mergeGo]
  | lr :: rest, cur => by
    simp only [mergeGo]
    split
    · exact mergeGo_ne_nil rest _
    · simp

theorem mergeSegs_eq_nil_iff (lrs : List (ℚ × String)) :
    mergeSegs lrs = [] ↔ lrs = [] := by
  cases lrs with
  | nil => simp [mergeSegs]
  | cons lr rest =>
    simp [mergeSegs, mergeGo_ne_nil rest ⟨lr.1, lr.1, lr.2⟩]

theorem mergeGo_spec (f : ℚ → String) (rest : List (ℚ × String)) :
    ∀ cur : MSeg,
      (∀ pr ∈ rest, pr.2 = f pr.1) →
      cur.winner = f cur.lowPrice →
      cur.lowPrice ≤ cur.highPrice →
      (rest.map Prod.fst).Pairwise (fun a b => b ≤ a) →
      (∀ pr ∈ rest, pr.1 ≤ cur.lowPrice) →
      (∃ low tl, mergeGo cur rest
          = { highPrice := cur.highPrice, lowPrice := low, winner := cur.winner } :: tl) ∧
      (∀ s ∈ mergeGo cur rest, s.lowPrice ≤ s.highPrice) ∧
      (∀ s ∈ mergeGo cur rest, s.lowPrice = cur.lowPrice ∨ s.lowPrice ∈ rest.map Prod.fst) ∧
      (mergeGo cur rest).Chain' (fun a b => b.highPrice < a.lowPrice ∧ a.winner ≠ b.winner) := by
  induction rest with
  | nil =>
    intro cur h1 h2 h3 h4 h5
    refine ⟨⟨cur.lowPrice, [], rfl⟩, ?_, ?_, ?_⟩
    · intro s hs
      rcases List.mem_singleton.mp hs with rfl
      exact h3
    · intro s hs
      rcases List.mem_singleton.mp hs with rfl
      exact Or.inl rfl
    · simp [mergeGo]
  | cons lr rest ih =>
    intro cur h1 h2 h3 h4 h5
    have hlr2 : lr.2 = f lr.1 := h1 lr (List.mem_cons_self lr rest)
    have hlrle : lr.1 ≤ cur.lowPrice := h5 lr (List.mem_cons_self lr rest)
    rw [List.map_cons, List.pairwise_cons] at h4
    have hrestle : ∀ pr ∈ rest, pr.1 ≤ lr.1 := fun pr hpr =>
      h4.1 pr.1 (List.mem_map_of_mem Prod.fst hpr)
    by_cases hw : lr.2 = cur.winner
    · have ihres := ih { cur with lowPrice := lr.1 }
        (fun pr hpr => h1 pr (List.mem_cons_of_mem lr hpr))
        (by rw [← hw]; exact hlr2)
        (le_trans hlrle h3)
        h4.2
        hrestle
      obtain ⟨⟨low, tl, heq⟩, hlohi, hmem, hchain⟩ := ihres
      have hun : mergeGo cur (lr :: rest) = mergeGo { cur with lowPrice := lr.1 } rest := by
        simp [mergeGo, hw]
      rw [hun]
      refine ⟨⟨low, tl, heq⟩, hlohi, ?_, hchain⟩
      intro s hs
      rcases hmem s hs with h | h
      · right
        rw [List.map_cons]
        exact h ▸ List.mem_cons_self lr.1 (rest.map Prod.fst)
      · right
        rw [List.map_cons]
        exact List.mem_cons_of_mem _ h
    · have hstrict : lr.1 < cur.lowPrice := by
        rcases lt_or_eq_of_le hlrle with hh | hh
        · exact hh
        · exact absurd (by rw [hlr2, hh, ← h2]) hw
      have ihres := ih { highPrice := lr.1, lowPrice := lr.1, winner := lr.2 }
        (fun pr hpr => h1 pr (List.mem_cons_of_mem lr hpr))
        hlr2
        (le_refl lr.1)
        h4.2
        hrestle
      obtain ⟨⟨low, tl, heq⟩, hlohi, hmem, hchain⟩ := ihres
      have hun : mergeGo cur (lr :: rest)
          = cur :: mergeGo { highPrice := lr.1, lowPrice := lr.1, winner := lr.2 } rest := by
        simp [mergeGo, hw]
      rw [hun, heq]
      rw [heq] at hlohi hmem hchain
      refine ⟨⟨cur.lowPrice, _, rfl⟩, ?_, ?_, ?_⟩
      · intro s hs
        rcases List.mem_cons.mp hs with rfl | hs
        · exact h3
        · exact hlohi s hs
      · intro s hs
        rcases List.mem_cons.mp hs with rfl | hs
        · exact Or.inl rfl
        · right
          rw [List.map_cons]
          rcases hmem s hs with h | h
          · exact h ▸ List.mem_cons_self lr.1 (rest.map Prod.fst)
          · exact List.mem_cons_of_mem _ h
      · refine List.chain'_cons.mpr ⟨⟨hstrict, fun hc => hw hc.symm⟩, hchain⟩

theorem mergeSegs_spec (f : ℚ → String) (lrs : List (ℚ × String))
    (hf : ∀ pr ∈ lrs, pr.2 = f pr.1)
    (hsorted : (lrs.map Prod.fst).Pairwise (fun a b => b ≤ a)) :
    (∀ s ∈ mergeSegs lrs, s.lowPrice ≤ s.highPrice) ∧
    (∀ s ∈ mergeSegs lrs, s.lowPrice ∈ lrs.map Prod.fst) ∧
    (mergeSegs lrs).Chain' (fun a b => b.highPrice < a.lowPrice ∧ a.winner ≠ b.winner) := by
  cases lrs with
  | nil => simp [mergeSegs]
  | cons lr rest =>
    rw [List.map_cons, List.pairwise_cons] at hsorted
    have hres := mergeGo_spec f rest ⟨lr.1, lr.1, lr.2⟩
      (fun pr hpr => hf pr (List.mem_cons_of_mem lr hpr))
      (hf lr (List.mem_cons_self lr rest))
      (le_refl lr.1)
      hsorted.2
      (fun pr hpr => hsorted.1 pr.1 (List.mem_map_of_mem Prod.fst hpr))
    obtain ⟨_, hlohi, hmem, hchain⟩ := hres
    have hms : mergeSegs (lr :: rest) = mergeGo ⟨lr.1, lr.1, lr.2⟩ rest := rfl
    rw [hms]
    refine ⟨hlohi, ?_, hchain⟩
    intro s hs
    rcases hmem s hs with h | h
    · rw [List.map_cons, h]
      exact List.mem_cons_self _ _
    · rw [List.map_cons]
      exact List.mem_cons_of_mem _ h

/-- The winner name selected at a given test price; on a recorded level this
is exactly the recorded winner (the selection depends only on the price). -/
def winnerNameAt (strategies : List ComparableStrategy) (targetPrice totalSize p : ℚ) : String :=
  match pickWinner (levelProfits strategies p targetPrice totalSize) with
  | some w => w.1
  | none => ""

theorem levelResults_winner_eq {strategies : List ComparableStrategy}
    {lvls : List ℚ} {t ts : ℚ} {pr : ℚ × String}
    (h : pr ∈ levelResults strategies lvls t ts) :
    pr.2 = winnerNameAt strategies t ts pr.1 := by
  obtain ⟨-, -, w, hw, hname⟩ := levelResults_mem h
  rw [winnerNameAt, hw]
  exact hname.symm

theorem filterMap_fst_sublist (g : ℚ → Option (ℚ × String))
    (hg : ∀ a x, g a = some x → x.1 = a) :
    ∀ l : List ℚ, List.Sublist ((l.filterMap g).map Prod.fst) l := by
  intro l
  induction l with
  | nil => simp
  | cons a as ih =>
    rw [List.filterMap_cons]
    cases hga : g a with
    | none => exact ih.cons a
    | some x =>
      rw [List.map_cons, hg a x hga]
      exact ih.cons₂ a

theorem levelResults_fst_sublist (strategies : List ComparableStrategy)
    (lvls : List ℚ) (t ts : ℚ) :
    List.Sublist ((levelResults strategies lvls t ts).map Prod.fst) lvls := by
  refine filterMap_fst_sublist _ ?_ lvls
  intro a x hax
  by_cases hle : maxOfProfits (levelProfits strategies a t ts) ≤ 0
  · simp [hle] at hax
  · cases hw : pickWinner (levelProfits strategies a t ts) with
    | none => simp [hle, hw] at hax
    | some w =>
      simp only [hle, if_false, hw] at hax
      cases hax
      rfl

theorem activeLevelsOf_pairwise (priceLevels : List ℚ) :
    (activeLevelsOf priceLevels).Pairwise (fun a b => b ≤ a) :=
  sortDesc_pairwise _

theorem levelResults_fst_pairwise (strategies : List ComparableStrategy)
    (priceLevels : List ℚ) (t ts : ℚ) :
    ((levelResults strategies (activeLevelsOf priceLevels) t ts).map Prod.fst).Pairwise
      (fun a b => b ≤ a) :=
  List.Pairwise.sublist (levelResults_fst_sublist strategies (activeLevelsOf priceLevels) t ts)
    (activeLevelsOf_pairwise priceLevels)

/-- Elimination form of a non-null analyzer result. -/
theorem analyzeStrategyAdvice_some {strategies : List ComparableStrategy}
    {priceLevels : List ℚ} {targetPrice totalSize bottomMin bottomMax bottomStep : ℚ}
    {advice : StrategyAdvice}
    (h : analyzeStrategyAdvice strategies priceLevels targetPrice totalSize
      bottomMin bottomMax bottomStep = some advice) :
    strategies ≠ [] ∧ activeLevelsOf priceLevels ≠ [] ∧
    advice =
      { zeroZonePrice := (activeLevelsOf priceLevels).headD 0,
        segments := toSegments (mergeSegs (levelResults strategies
          (activeLevelsOf priceLevels) targetPrice totalSize)),
        bestStrategy :=
          if (bestOf (winCounts (levelResults strategies
              (activeLevelsOf priceLevels) targetPrice totalSize))).1 = "" then none
          else some
            ⟨(bestOf (winCounts (levelResults strategies
                (activeLevelsOf priceLevels) targetPrice totalSize))).1,
             (bestOf (winCounts (levelResults strategies
                (activeLevelsOf priceLevels) targetPrice totalSize))).2⟩,
        coveragePct := coveragePctOf (activeLevelsOf priceLevels)
          (mergeSegs (levelResults strategies (activeLevelsOf priceLevels)
            targetPrice totalSize))
          (bestOf (winCounts (levelResults strategies
            (activeLevelsOf priceLevels) targetPrice totalSize))).1
          bottomMin bottomMax bottomStep } := by
  by_cases h1 : strategies.isEmpty
  · rw [analyzeStrategyAdvice, if_pos h1] at h
    cases h
  · by_cases h2 : (activeLevelsOf priceLevels).isEmpty
    · rw [analyzeStrategyAdvice, if_neg h1] at h
      simp only [h2, if_true] at h
      cases h
    · refine ⟨fun hc => h1 (by simp [hc]), fun hc => h2 (by simp [hc]), ?_⟩
      rw [analyzeStrategyAdvice, if_neg h1] at h
      simp only [h2, Bool.false_eq_true, if_false] at h
      exact (Option.some.inj h).symm

theorem length_toSegments (segs : List MSeg) :
    (toSegments segs).length = segs.length := by
  simp [toSegments]

theorem mem_toSegments_full {segs : List MSeg} {seg : Segment}
    (h : seg ∈ toSegments segs) :
    ∃ i : Fin segs.length,
      seg.rangeHigh = (segs.get i).highPrice ∧
      seg.rangeLow = (segs.get i).lowPrice ∧
      seg.winner = (segs.get i).winner ∧
      seg.isLast = (i.1 == segs.length - 1) := by
  simp only [toSegments, List.mem_map] at h
  obtain ⟨p, hp, rfl⟩ := h
  obtain ⟨hlt, hget⟩ := List.getElem?_eq_some.mp (List.mem_enum_iff_getElem?.mp hp)
  refine ⟨⟨p.1, hlt⟩, ?_, ?_, ?_, rfl⟩ <;> simp [← hget, List.get_eq_getElem]

theorem mem_toSegments {segs : List MSeg} {seg : Segment}
    (h : seg ∈ toSegments segs) :
    ∃ ms ∈ segs, seg.rangeHigh = ms.highPrice ∧ seg.rangeLow = ms.lowPrice ∧
      seg.winner = ms.winner := by
  obtain ⟨i, h1, h2, h3, _⟩ := mem_toSegments_full h
  exact ⟨segs.get i, List.get_mem segs i.1 i.2, h1, h2, h3⟩

theorem toSegments_chain' {segs : List MSeg}
    (h : segs.Chain' (fun a b => b.highPrice < a.lowPrice ∧ a.winner ≠ b.winner)) :
    (toSegments segs).Chain'
      (fun a b => b.rangeHigh < a.rangeLow ∧ a.winner ≠ b.winner) := by
  rw [toSegments, List.chain'_map]
  rw [List.chain'_iff_get] at h ⊢
  intro i hi
  rw [List.enum_length] at hi
  have h1 : i < segs.enum.length := by rw [List.enum_length]; omega
  have h2 : i + 1 < segs.enum.length := by rw [List.enum_length]; omega
  rw [List.get_enum, List.get_enum]
  exact h i (by omega)

/-! ### C10 — segment ordering invariants -/

/-- C10.  In every non-null result, each segment satisfies
`rangeLow ≤ rangeHigh`, consecutive segments are strictly descending
(the later segment's `rangeHigh` is strictly below the earlier segment's
`rangeLow`), and adjacent segments have different winners. -/
theorem C10_segment_invariants (strategies : List ComparableStrategy)
    (priceLevels : List ℚ)
    (targetPrice totalSize bottomMin bottomMax bottomStep : ℚ)
    (advice : StrategyAdvice)
    (h : analyzeStrategyAdvice strategies priceLevels targetPrice totalSize
      bottomMin bottomMax bottomStep = some advice) :
    (∀ seg ∈ advice.segments, seg.rangeLow ≤ seg.rangeHigh) ∧
    advice.segments.Chain'
      (fun a b => b.rangeHigh < a.rangeLow ∧ a.winner ≠ b.winner) := by
  obtain ⟨hs, hal, rfl⟩ := analyzeStrategyAdvice_some h
  obtain ⟨hlohi, hmem, hchain⟩ := mergeSegs_spec
    (winnerNameAt strategies targetPrice totalSize)
    (levelResults strategies (activeLevelsOf priceLevels) targetPrice totalSize)
    (fun pr hpr => levelResults_winner_eq hpr)
    (levelResults_fst_pairwise strategies priceLevels targetPrice totalSize)
  constructor
  · intro seg hseg
    obtain ⟨ms, hms, e1, e2, e3⟩ := mem_toSegments hseg
    rw [e1, e2]
    exact hlohi ms hms
  · exact toSegments_chain' hchain

theorem C10_segment_invariants_witness :
    (∀ seg ∈ ([⟨90, 90, false, "stratA"⟩, ⟨70, 70, true, "stratB"⟩] : List Segment),
      seg.rangeLow ≤ seg.rangeHigh) ∧
    ([⟨90, 90, false, "stratA"⟩, ⟨70, 70, true, "stratB"⟩] : List Segment).Chain'
      (fun a b => b.rangeHigh < a.rangeLow ∧ a.winner ≠ b.winner) := by
  have h := C10_segment_invariants
    [⟨"stratA", [⟨90, 9/10⟩, ⟨70, 1/10⟩]⟩, ⟨"stratB", [⟨90, 1/10⟩, ⟨70, 9/10⟩]⟩]
    [90, 70] 100 1000 50 90 1
    ⟨90, [⟨90, 90, false, "stratA"⟩, ⟨70, 70, true, "stratB"⟩],
      some ⟨"stratA", 1⟩, 49⟩
    (by
      norm_num [analyzeStrategyAdvice, activeLevelsOf, sortDesc, insertDesc,
        levelResults, levelProfits, strategyProfit, calculatePositionStats,
        filledLevels, maxOfProfits, pickWinner, mergeSegs, mergeGo, winCounts,
        bumpCount, bestOf, toSegments, List.enum, List.enumFrom, coveragePctOf,
        segCoverage, idxOf, jsRound, List.filter, List.filterMap, List.find?,
        max_def, min_def]
      simp +decide [mergeSegs, mergeGo, winCounts, bumpCount, bestOf, toSegments,
        List.enum, List.enumFrom, coveragePctOf, segCoverage, idxOf, jsRound,
        max_def, min_def]
      norm_num [Int.floor_eq_iff, max_def, min_def])
  exact h

/-! ### C4 — segment merging and the `isLast` flag -/

/-- Introduction form of a non-null analyzer result. -/
theorem analyzeStrategyAdvice_eq_some {strategies : List ComparableStrategy}
    {priceLevels : List ℚ} {t ts bmin bmax bstep : ℚ}
    (h1 : strategies ≠ []) (h2 : activeLevelsOf priceLevels ≠ []) :
    analyzeStrategyAdvice strategies priceLevels t ts bmin bmax bstep = some
      { zeroZonePrice := (activeLevelsOf priceLevels).headD 0,
        segments := toSegments (mergeSegs (levelResults strategies
          (activeLevelsOf priceLevels) t ts)),
        bestStrategy :=
          if (bestOf (winCounts (levelResults strategies
              (activeLevelsOf priceLevels) t ts))).1 = "" then none
          else some
            ⟨(bestOf (winCounts (levelResults strategies
                (activeLevelsOf priceLevels) t ts))).1,
             (bestOf (winCounts (levelResults strategies
                (activeLevelsOf priceLevels) t ts))).2⟩,
        coveragePct := coveragePctOf (activeLevelsOf priceLevels)
          (mergeSegs (levelResults strategies (activeLevelsOf priceLevels) t ts))
          (bestOf (winCounts (levelResults strategies
            (activeLevelsOf priceLevels) t ts))).1 bmin bmax bstep } := by
  have h1' : strategies.isEmpty = false := by simpa [List.isEmpty_iff] using h1
  have h2' : (activeLevelsOf priceLevels).isEmpty = false := by
    simpa [List.isEmpty_iff] using h2
  rw [analyzeStrategyAdvice]
  simp only [h1', h2', Bool.false_eq_true, if_false]

theorem getLast_min_of_pairwise :
    ∀ (l : List ℚ) (h : l ≠ []), l.Pairwise (fun a b => b ≤ a) →
      ∀ x ∈ l, l.getLast h ≤ x := by
  intro l
  induction l with
  | nil => intro h; exact absurd rfl h
  | cons a as ih =>
    intro h hp x hx
    rw [List.pairwise_cons] at hp
    rcases List.mem_cons.mp hx with rfl | hx
    · cases as with
      | nil => simp [List.getLast]
      | cons b bs =>
        rw [List.getLast_cons (List.cons_ne_nil b bs)]
        exact hp.1 _ (List.getLast_mem (List.cons_ne_nil b bs))
    · cases as with
      | nil => cases hx
      | cons b bs =>
        rw [List.getLast_cons (List.cons_ne_nil b bs)]
        exact ih (List.cons_ne_nil b bs) hp.2 x hx

/-- C4.  Adjacent recorded levels sharing a winner merge into one segment:
with exactly three active levels all won by the same strategy the result has
exactly one segment spanning from the highest to the lowest level, flagged
`isLast`; and in any non-null result a segment that reaches the lowest
active level has `isLast = true`. -/
theorem C4_merge_and_isLast :
    (∀ (strategies : List ComparableStrategy) (priceLevels : List ℚ)
        (targetPrice totalSize bottomMin bottomMax bottomStep p1 p2 p3 : ℚ)
        (w : String),
      strategies ≠ [] →
      activeLevelsOf priceLevels = [p1, p2, p3] →
      levelResults strategies [p1, p2, p3] targetPrice totalSize
        = [(p1, w), (p2, w), (p3, w)] →
      ∃ advice, analyzeStrategyAdvice strategies priceLevels targetPrice totalSize
          bottomMin bottomMax bottomStep = some advice ∧
        advice.segments = [⟨p1, p3, true, w⟩]) ∧
    (∀ (strategies : List ComparableStrategy) (priceLevels : List ℚ)
        (targetPrice totalSize bottomMin bottomMax bottomStep : ℚ)
        (advice : StrategyAdvice) (seg : Segment),
      analyzeStrategyAdvice strategies priceLevels targetPrice totalSize
        bottomMin bottomMax bottomStep = some advice →
      seg ∈ advice.segments →
      (activeLevelsOf priceLevels).getLast? = some seg.rangeLow →
      seg.isLast = true) := by
  constructor
  · intro strategies priceLevels t ts bmin bmax bstep p1 p2 p3 w hne hact hlrs
    refine ⟨_, analyzeStrategyAdvice_eq_some hne (by rw [hact]; simp), ?_⟩
    simp only [hact, hlrs]
    simp [mergeSegs, mergeGo, toSegments, List.enum, List.enumFrom]
  · intro strategies priceLevels t ts bmin bmax bstep advice seg hres hseg hlast
    obtain ⟨hs, hal, rfl⟩ := analyzeStrategyAdvice_some hres
    obtain ⟨hlohi, hmem, hchain⟩ := mergeSegs_spec
      (winnerNameAt strategies t ts)
      (levelResults strategies (activeLevelsOf priceLevels) t ts)
      (fun pr hpr => levelResults_winner_eq hpr)
      (levelResults_fst_pairwise strategies priceLevels t ts)
    obtain ⟨i, e1, e2, e3, e4⟩ := mem_toSegments_full hseg
    by_cases hi : i.1 = (mergeSegs (levelResults strategies
        (activeLevelsOf priceLevels) t ts)).length - 1
    · rw [e4, hi]
      simp
    · exfalso
      have hil : i.1 < (mergeSegs (levelResults strategies
          (activeLevelsOf priceLevels) t ts)).length := i.2
      have hlt : i.1 < (mergeSegs (levelResults strategies
          (activeLevelsOf priceLevels) t ts)).length - 1 := by omega
      have hi1 : i.1 + 1 < (mergeSegs (levelResults strategies
          (activeLevelsOf priceLevels) t ts)).length := by omega
      have hch := List.chain'_iff_get.mp hchain i.1 hlt
      have hla : seg.rangeLow = (activeLevelsOf priceLevels).getLast hal := by
        rw [List.getLast?_eq_getLast _ hal] at hlast
        exact (Option.some.inj hlast).symm
      have hnm : (mergeSegs (levelResults strategies
            (activeLevelsOf priceLevels) t ts)).get ⟨i.1 + 1, hi1⟩
          ∈ mergeSegs (levelResults strategies (activeLevelsOf priceLevels) t ts) :=
        List.get_mem _ _ _
      have hnlow := hmem _ hnm
      have hsub := (levelResults_fst_sublist strategies
        (activeLevelsOf priceLevels) t ts).subset
      have hge : (activeLevelsOf priceLevels).getLast hal
          ≤ ((mergeSegs (levelResults strategies
              (activeLevelsOf priceLevels) t ts)).get ⟨i.1 + 1, hi1⟩).lowPrice :=
        getLast_min_of_pairwise _ hal (activeLevelsOf_pairwise priceLevels)
          _ (hsub hnlow)
      have hle := hlohi _ hnm
      have hch1 : ((mergeSegs (levelResults strategies
          (activeLevelsOf priceLevels) t ts)).get ⟨i.1 + 1, hi1⟩).highPrice
          < seg.rangeLow := by
        rw [e2]
        exact hch.1
      rw [hla] at hch1
      exact absurd (lt_of_le_of_lt (le_trans hge hle) hch1) (lt_irrefl _)

theorem C4_merge_and_isLast_witness :
    ∃ advice, analyzeStrategyAdvice [⟨"u", [⟨90, 1/3⟩, ⟨80, 1/3⟩, ⟨70, 1/3⟩]⟩]
        [90, 80, 70] 100 1000 50 90 1 = some advice ∧
      advice.segments = [⟨90, 70, true, "u"⟩] :=
  C4_merge_and_isLast.1 [⟨"u", [⟨90, 1/3⟩, ⟨80, 1/3⟩, ⟨70, 1/3⟩]⟩]
    [90, 80, 70] 100 1000 50 90 1 90 80 70 "u"
    (by simp)
    (by norm_num [activeLevelsOf, sortDesc, insertDesc, List.filter])
    (by
      norm_num [levelResults, levelProfits, strategyProfit, calculatePositionStats,
        filledLevels, maxOfProfits, pickWinner, List.filter, List.filterMap,
        List.find?]
      simp +decide [])

/-! ### Win-count and best-strategy lemmas (shared by C6, C9) -/

theorem bumpCount_ne_nil (m : List (String × Nat)) (name : String) :
    bumpCount m name ≠ [] := by
  cases m with
  | nil => simp [bumpCount]
  | cons e rest =>
    rw [bumpCount]
    split <;> simp

theorem mem_bumpCount_names :
    ∀ (m : List (String × Nat)) (name : String),
      ∀ e ∈ bumpCount m name, e.1 = name ∨ e.1 ∈ m.map Prod.fst := by
  intro m
  induction m with
  | nil =>
    intro name e he
    rcases List.mem_singleton.mp he with rfl
    exact Or.inl rfl
  | cons x rest ih =>
    intro name e he
    rw [bumpCount] at he
    by_cases hx : x.1 = name
    · rw [if_pos hx] at he
      rcases List.mem_cons.mp he with rfl | he
      · exact Or.inl hx
      · right
        rw [List.map_cons]
        exact List.mem_cons_of_mem _ (List.mem_map_of_mem Prod.fst he)
    · rw [if_neg hx] at he
      rcases List.mem_cons.mp he with rfl | he
      · right
        rw [List.map_cons]
        exact List.mem_cons_self _ _
      · rcases ih name e he with h | h
        · exact Or.inl h
        · right
          rw [List.map_cons]
          exact List.mem_cons_of_mem _ h

theorem mem_bumpCount_counts :
    ∀ (m : List (String × Nat)) (name : String), (∀ e ∈ m, 1 ≤ e.2) →
      ∀ e ∈ bumpCount m name, 1 ≤ e.2 := by
  intro m
  induction m with
  | nil =>
    intro name _ e he
    rcases List.mem_singleton.mp he with rfl
    exact le_refl 1
  | cons x rest ih =>
    intro name hm e he
    rw [bumpCount] at he
    by_cases hx : x.1 = name
    · rw [if_pos hx] at he
      rcases List.mem_cons.mp he with rfl | he
      · exact le_trans (hm x (List.mem_cons_self x rest)) (by omega)
      · exact hm e (List.mem_cons_of_mem x he)
    · rw [if_neg hx] at he
      rcases List.mem_cons.mp he with rfl | he
      · exact hm x (List.mem_cons_self x rest)
      · exact ih name (fun q hq => hm q (List.mem_cons_of_mem x hq)) e he

theorem foldl_bump_names (P : String → Prop) :
    ∀ (lrs : List (ℚ × String)) (m : List (String × Nat)),
      (∀ e ∈ m, P e.1) → (∀ lr ∈ lrs, P lr.2) →
      ∀ e ∈ lrs.foldl (fun m lr => bumpCount m lr.2) m, P e.1 := by
  intro lrs
  induction lrs with
  | nil => intro m hm _ e he; exact hm e he
  | cons lr rest ih =>
    intro m hm hl e he
    rw [List.foldl_cons] at he
    refine ih (bumpCount m lr.2) ?_ (fun q hq => hl q (List.mem_cons_of_mem lr hq)) e he
    intro q hq
    rcases mem_bumpCount_names m lr.2 q hq with h | h
    · exact h ▸ hl lr (List.mem_cons_self lr rest)
    · obtain ⟨x, hx, hxq⟩ := List.mem_map.mp h
      exact hxq ▸ hm x hx

theorem foldl_bump_counts :
    ∀ (lrs : List (ℚ × String)) (m : List (String × Nat)),
      (∀ e ∈ m, 1 ≤ e.2) →
      ∀ e ∈ lrs.foldl (fun m lr => bumpCount m lr.2) m, 1 ≤ e.2 := by
  intro lrs
  induction lrs with
  | nil => intro m hm e he; exact hm e he
  | cons lr rest ih =>
    intro m hm e he
    rw [List.foldl_cons] at he
    exact ih (bumpCount m lr.2) (mem_bumpCount_counts m lr.2 hm) e he

theorem winCounts_counts (lrs : List (ℚ × String)) :
    ∀ e ∈ winCounts lrs, 1 ≤ e.2 :=
  foldl_bump_counts lrs [] (by simp)

theorem foldl_bump_ne_nil :
    ∀ (lrs : List (ℚ × String)) (m : List (String × Nat)), m ≠ [] →
      lrs.foldl (fun m lr => bumpCount m lr.2) m ≠ [] := by
  intro lrs
  induction lrs with
  | nil => intro m hm; exact hm
  | cons lr rest ih =>
    intro m hm
    rw [List.foldl_cons]
    exact ih (bumpCount m lr.2) (bumpCount_ne_nil m lr.2)

theorem winCounts_eq_nil_iff (lrs : List (ℚ × String)) :
    winCounts lrs = [] ↔ lrs = [] := by
  cases lrs with
  | nil => simp [winCounts]
  | cons lr rest =>
    constructor
    · intro h
      exact absurd h (by
        rw [winCounts, List.foldl_cons]
        exact foldl_bump_ne_nil rest (bumpCount [] lr.2) (bumpCount_ne_nil [] lr.2))
    · intro h
      cases h

theorem foldl_best_spec (l : List (String × Nat)) :
    ∀ init : String × Nat,
      (l.foldl (fun best e => if best.2 < e.2 then e else best) init = init ∧
        ∀ e ∈ l, e.2 ≤ init.2) ∨
      ∃ pre post r, l = pre ++ r :: post ∧
        l.foldl (fun best e => if best.2 < e.2 then e else best) init = r ∧
        init.2 < r.2 ∧ (∀ e ∈ pre, e.2 < r.2) ∧ (∀ e ∈ post, e.2 ≤ r.2) := by
  induction l with
  | nil => intro init; exact Or.inl ⟨rfl, by simp⟩
  | cons x l ih =>
    intro init
    rw [List.foldl_cons]
    by_cases hx : init.2 < x.2
    · rw [if_pos hx]
      rcases ih x with ⟨heq, hall⟩ | ⟨pre, post, r, hsplit, heq, hlt, hpre, hpost⟩
      · refine Or.inr ⟨[], l, x, by simp, heq, hx, by simp, hall⟩
      · refine Or.inr ⟨x :: pre, post, r, by rw [hsplit, List.cons_append], heq,
          lt_trans hx hlt, ?_, hpost⟩
        intro e he
        rcases List.mem_cons.mp he with rfl | he
        · exact hlt
        · exact hpre e he
    · rw [if_neg hx]
      rcases ih init with ⟨heq, hall⟩ | ⟨pre, post, r, hsplit, heq, hlt, hpre, hpost⟩
      · refine Or.inl ⟨heq, ?_⟩
        intro e he
        rcases List.mem_cons.mp he with rfl | he
        · exact le_of_not_lt hx
        · exact hall e he
      · refine Or.inr ⟨x :: pre, post, r, by rw [hsplit, List.cons_append], heq,
          hlt, ?_, hpost⟩
        intro e he
        rcases List.mem_cons.mp he with rfl | he
        · exact lt_of_le_of_lt (le_of_not_lt hx) hlt
        · exact hpre e he

theorem bestOf_spec (wcs : List (String × Nat)) (hpos : ∀ e ∈ wcs, 1 ≤ e.2) :
    (wcs = [] ∧ bestOf wcs = ("", 0)) ∨
    (∃ pre post, wcs = pre ++ bestOf wcs :: post ∧
      (∀ e ∈ pre, e.2 < (bestOf wcs).2) ∧
      (∀ e ∈ wcs, e.2 ≤ (bestOf wcs).2)) := by
  rcases foldl_best_spec wcs ("", 0) with ⟨heq, hall⟩ | ⟨pre, post, r, hsplit, heq, hlt, hpre, hpost⟩
  · cases wcs with
    | nil => exact Or.inl ⟨rfl, heq⟩
    | cons e rest =>
      exact absurd (hall e (List.mem_cons_self e rest))
        (by have := hpos e (List.mem_cons_self e rest); omega)
  · refine Or.inr ⟨pre, post, ?_, ?_, ?_⟩
    · rw [bestOf, heq]; exact hsplit
    · rw [bestOf, heq]; exact hpre
    · rw [bestOf, heq]
      intro e he
      rw [hsplit] at he
      rcases List.mem_append.mp he with h | h
      · exact le_of_lt (hpre e h)
      · rcases List.mem_cons.mp h with rfl | h
        · exact le_refl _
        · exact hpost e h

theorem pickWinner_mem {ps : List (String × ℚ)} {w : String × ℚ}
    (h : pickWinner ps = some w) : w ∈ ps := by
  rw [pickWinner] at h
  cases hf : (ps.filter (fun p => decide (p.2 = maxOfProfits ps))).find?
      (fun w => decide (w.1 = "custom")) with
  | some u =>
    rw [hf] at h
    cases h
    exact (List.mem_filter.mp (List.mem_of_find?_eq_some hf)).1
  | none =>
    rw [hf] at h
    exact (List.mem_filter.mp (List.mem_of_mem_head? h)).1

theorem levelResults_name_of_strategies {strategies : List ComparableStrategy}
    {lvls : List ℚ} {t ts : ℚ} {pr : ℚ × String}
    (h : pr ∈ levelResults strategies lvls t ts) :
    ∃ st ∈ strategies, st.name = pr.2 := by
  obtain ⟨-, -, w, hw, hwn⟩ := levelResults_mem h
  have hmem := pickWinner_mem hw
  rw [levelProfits] at hmem
  obtain ⟨st, hst, hstw⟩ := List.mem_map.mp hmem
  exact ⟨st, hst, by rw [← hwn, ← hstw]⟩

theorem toSegments_eq_nil_iff (segs : List MSeg) :
    toSegments segs = [] ↔ segs = [] := by
  constructor
  · intro h
    have := length_toSegments segs
    rw [h] at this
    exact List.length_eq_zero.mp this.symm
  · intro h
    rw [h]
    rfl

/-! ### C9 — bestStrategy null vs empty segments -/

/-- C9 (amended).  Provided every strategy name is non-empty (the
JavaScript truthiness test `if (bestStrategy.name)` conflates the empty
string with "no winner"), a non-null result has `bestStrategy = null` iff
its segment list is empty. -/
theorem C9_best_null_iff_no_segments (strategies : List ComparableStrategy)
    (priceLevels : List ℚ)
    (targetPrice totalSize bottomMin bottomMax bottomStep : ℚ)
    (advice : StrategyAdvice)
    (hname : ∀ st ∈ strategies, st.name ≠ "")
    (h : analyzeStrategyAdvice strategies priceLevels targetPrice totalSize
      bottomMin bottomMax bottomStep = some advice) :
    advice.bestStrategy = none ↔ advice.segments = [] := by
  obtain ⟨hs, hal, rfl⟩ := analyzeStrategyAdvice_some h
  have hwname : ∀ e ∈ winCounts (levelResults strategies
      (activeLevelsOf priceLevels) targetPrice totalSize), e.1 ≠ "" := by
    refine foldl_bump_names (fun n => n ≠ "") _ [] (by simp) ?_
    intro lr hlr
    obtain ⟨st, hst, hstn⟩ := levelResults_name_of_strategies hlr
    rw [← hstn]
    exact hname st hst
  constructor
  · intro hb
    have hb' : (if (bestOf (winCounts (levelResults strategies
        (activeLevelsOf priceLevels) targetPrice totalSize))).1 = "" then none
        else some ⟨(bestOf (winCounts (levelResults strategies
          (activeLevelsOf priceLevels) targetPrice totalSize))).1,
          (bestOf (winCounts (levelResults strategies
            (activeLevelsOf priceLevels) targetPrice totalSize))).2⟩)
        = (none : Option BestStrategy) := hb
    by_cases hb1 : (bestOf (winCounts (levelResults strategies
        (activeLevelsOf priceLevels) targetPrice totalSize))).1 = ""
    · rcases bestOf_spec (winCounts (levelResults strategies
          (activeLevelsOf priceLevels) targetPrice totalSize))
          (winCounts_counts _) with ⟨hnil, -⟩ | ⟨pre, post, hsplit, -, -⟩
      · rw [winCounts_eq_nil_iff] at hnil
        show toSegments (mergeSegs (levelResults strategies
          (activeLevelsOf priceLevels) targetPrice totalSize)) = []
        rw [hnil]
        rfl
      · have hmem : bestOf (winCounts (levelResults strategies
            (activeLevelsOf priceLevels) targetPrice totalSize))
            ∈ pre ++ bestOf (winCounts (levelResults strategies
              (activeLevelsOf priceLevels) targetPrice totalSize)) :: post :=
          List.mem_append.mpr (Or.inr (List.mem_cons_self _ _))
        rw [← hsplit] at hmem
        exact absurd hb1 (hwname _ hmem)
    · rw [if_neg hb1] at hb'
      cases hb'
  · intro hseg
    have hsegs : mergeSegs (levelResults strategies
        (activeLevelsOf priceLevels) targetPrice totalSize) = [] :=
      (toSegments_eq_nil_iff _).mp hseg
    have hlrs : levelResults strategies
        (activeLevelsOf priceLevels) targetPrice totalSize = [] :=
      (mergeSegs_eq_nil_iff _).mp hsegs
    show (if (bestOf (winCounts (levelResults strategies
        (activeLevelsOf priceLevels) targetPrice totalSize))).1 = "" then none
        else some ⟨(bestOf (winCounts (levelResults strategies
          (activeLevelsOf priceLevels) targetPrice totalSize))).1,
          (bestOf (winCounts (levelResults strategies
            (activeLevelsOf priceLevels) targetPrice totalSize))).2⟩)
        = (none : Option BestStrategy)
    rw [hlrs]
    rfl

theorem C9_counterexample :
    analyzeStrategyAdvice [⟨"", [⟨90, 1⟩]⟩] [90] 100 1000 50 90 1
      = some ⟨90, [⟨90, 90, true, ""⟩], none, 0⟩ := by
  norm_num [analyzeStrategyAdvice, activeLevelsOf, sortDesc, insertDesc,
    levelResults, levelProfits, strategyProfit, calculatePositionStats,
    filledLevels, maxOfProfits, pickWinner, mergeSegs, mergeGo, winCounts,
    bumpCount, bestOf, toSegments, List.enum, List.enumFrom, coveragePctOf,
    segCoverage, idxOf, jsRound, List.filter, List.filterMap, List.find?,
    max_def, min_def]
  simp +decide [mergeSegs, mergeGo, winCounts, bumpCount, bestOf, toSegments,
    List.enum, List.enumFrom, coveragePctOf, segCoverage, idxOf, jsRound,
    max_def, min_def]

theorem C9_best_null_iff_no_segments_witness :
    (StrategyAdvice.mk 90 [⟨90, 90, true, "a"⟩] (some ⟨"a", 1⟩) 100).bestStrategy = none
      ↔ (StrategyAdvice.mk 90 [⟨90, 90, true, "a"⟩] (some ⟨"a", 1⟩) 100).segments = [] :=
  C9_best_null_iff_no_segments [⟨"a", [⟨90, 1⟩]⟩] [90] 100 1000 50 90 1 _
    (by simp)
    (by
      norm_num [analyzeStrategyAdvice, activeLevelsOf, sortDesc, insertDesc,
        levelResults, levelProfits, strategyProfit, calculatePositionStats,
        filledLevels, maxOfProfits, pickWinner, mergeSegs, mergeGo, winCounts,
        bumpCount, bestOf, toSegments, List.enum, List.enumFrom, coveragePctOf,
        segCoverage, idxOf, jsRound, List.filter, List.filterMap, List.find?,
        max_def, min_def]
      simp +decide [mergeSegs, mergeGo, winCounts, bumpCount, bestOf, toSegments,
        List.enum, List.enumFrom, coveragePctOf, segCoverage, idxOf, jsRound,
        max_def, min_def]
      norm_num [Int.floor_eq_iff, max_def, min_def])

/-! ### C6 — bestStrategy by win count -/

/-- C6 (amended).  Provided every strategy name is non-empty: if every
active level's maximum profit is ≤ 0 then `bestStrategy` is `null`; and a
non-null `bestStrategy` is exactly the first entry of the insertion-ordered
win-count map that attains the maximal count (entries are inserted in order
of first win, so ties are broken by first-encountered). -/
theorem C6_best_by_count (strategies : List ComparableStrategy)
    (priceLevels : List ℚ)
    (targetPrice totalSize bottomMin bottomMax bottomStep : ℚ)
    (advice : StrategyAdvice)
    (hname : ∀ st ∈ strategies, st.name ≠ "")
    (h : analyzeStrategyAdvice strategies priceLevels targetPrice totalSize
      bottomMin bottomMax bottomStep = some advice) :
    ((∀ p ∈ activeLevelsOf priceLevels,
        maxOfProfits (levelProfits strategies p targetPrice totalSize) ≤ 0) →
      advice.bestStrategy = none) ∧
    (∀ b, advice.bestStrategy = some b →
      ∃ pre post,
        winCounts (levelResults strategies (activeLevelsOf priceLevels)
          targetPrice totalSize) = pre ++ (b.name, b.count) :: post ∧
        (∀ e ∈ pre, e.2 < b.count) ∧
        (∀ e ∈ winCounts (levelResults strategies (activeLevelsOf priceLevels)
          targetPrice totalSize), e.2 ≤ b.count)) := by
  obtain ⟨hs, hal, rfl⟩ := analyzeStrategyAdvice_some h
  constructor
  · intro hle
    have hlrs : levelResults strategies
        (activeLevelsOf priceLevels) targetPrice totalSize = [] := by
      rw [levelResults]
      rw [List.filterMap_eq_nil_iff]
      intro a ha
      simp only [if_pos (hle a ha)]
    show (if (bestOf (winCounts (levelResults strategies
        (activeLevelsOf priceLevels) targetPrice totalSize))).1 = "" then none
        else some ⟨(bestOf (winCounts (levelResults strategies
          (activeLevelsOf priceLevels) targetPrice totalSize))).1,
          (bestOf (winCounts (levelResults strategies
            (activeLevelsOf priceLevels) targetPrice totalSize))).2⟩)
        = (none : Option BestStrategy)
    rw [hlrs]
    rfl
  · intro b hb
    have hb' : (if (bestOf (winCounts (levelResults strategies
        (activeLevelsOf priceLevels) targetPrice totalSize))).1 = "" then none
        else some (⟨(bestOf (winCounts (levelResults strategies
          (activeLevelsOf priceLevels) targetPrice totalSize))).1,
          (bestOf (winCounts (levelResults strategies
            (activeLevelsOf priceLevels) targetPrice totalSize))).2⟩ : BestStrategy))
        = some b := hb
    by_cases h1 : (bestOf (winCounts (levelResults strategies
        (activeLevelsOf priceLevels) targetPrice totalSize))).1 = ""
    · rw [if_pos h1] at hb'
      cases hb'
    · rw [if_neg h1] at hb'
      have hbb := Option.some.inj hb'
      rcases bestOf_spec (winCounts (levelResults strategies
          (activeLevelsOf priceLevels) targetPrice totalSize))
          (winCounts_counts _) with ⟨hnil, hbo⟩ | ⟨pre, post, hsplit, hpre, hall⟩
      · rw [hbo] at h1
        exact absurd rfl h1
      · subst hbb
        refine ⟨pre, post, ?_, hpre, hall⟩
        exact hsplit

theorem C6_counterexample :
    analyzeStrategyAdvice [⟨"", [⟨80, 1⟩]⟩] [80] 100 1000 50 90 1
      = some ⟨80, [⟨80, 80, true, ""⟩], none, 0⟩ := by
  norm_num [analyzeStrategyAdvice, activeLevelsOf, sortDesc, insertDesc,
    levelResults, levelProfits, strategyProfit, calculatePositionStats,
    filledLevels, maxOfProfits, pickWinner, mergeSegs, mergeGo, winCounts,
    bumpCount, bestOf, toSegments, List.enum, List.enumFrom, coveragePctOf,
    segCoverage, idxOf, jsRound, List.filter, List.filterMap, List.find?,
    max_def, min_def]
  simp +decide [mergeSegs, mergeGo, winCounts, bumpCount, bestOf, toSegments,
    List.enum, List.enumFrom, coveragePctOf, segCoverage, idxOf, jsRound,
    max_def, min_def]

theorem C6_best_by_count_witness :
    ∃ pre post,
      winCounts (levelResults [⟨"a", [⟨90, 1⟩]⟩, ⟨"b", [⟨70, 1⟩]⟩]
        (activeLevelsOf [90, 70]) 100 1000)
        = pre ++ ((⟨"a", 1⟩ : BestStrategy).name, (⟨"a", 1⟩ : BestStrategy).count) :: post ∧
      (∀ e ∈ pre, e.2 < (⟨"a", 1⟩ : BestStrategy).count) ∧
      (∀ e ∈ winCounts (levelResults [⟨"a", [⟨90, 1⟩]⟩, ⟨"b", [⟨70, 1⟩]⟩]
        (activeLevelsOf [90, 70]) 100 1000), e.2 ≤ (⟨"a", 1⟩ : BestStrategy).count) :=
  (C6_best_by_count [⟨"a", [⟨90, 1⟩]⟩, ⟨"b", [⟨70, 1⟩]⟩] [90, 70] 100 1000 50 90 1
    ⟨90, [⟨90, 90, false, "a"⟩, ⟨70, 70, true, "b"⟩], some ⟨"a", 1⟩, 49⟩
    (by simp)
    (by
      norm_num [analyzeStrategyAdvice, activeLevelsOf, sortDesc, insertDesc,
        levelResults, levelProfits, strategyProfit, calculatePositionStats,
        filledLevels, maxOfProfits, pickWinner, mergeSegs, mergeGo, winCounts,
        bumpCount, bestOf, toSegments, List.enum, List.enumFrom, coveragePctOf,
        segCoverage, idxOf, jsRound, List.filter, List.filterMap, List.find?,
        max_def, min_def]
      simp +decide [mergeSegs, mergeGo, winCounts, bumpCount, bestOf, toSegments,
        List.enum, List.enumFrom, coveragePctOf, segCoverage, idxOf, jsRound,
        max_def, min_def]
      norm_num [Int.floor_eq_iff, max_def, min_def])).2 ⟨"a", 1⟩ rfl

/-! ### C3 — single-strategy coverage -/

theorem pickWinner_single (n : String) (m : ℚ) : pickWinner [(n, m)] = some (n, m) := by
  by_cases hc : n = "custom"
  · subst hc
    simp [pickWinner, List.find?, maxOfProfits]
  · simp [pickWinner, List.find?, maxOfProfits, hc]

theorem levelResults_single (s : ComparableStrategy) (lvls : List ℚ) (t ts : ℚ)
    (h : ∀ p ∈ lvls, 0 < strategyProfit s p t ts) :
    levelResults [s] lvls t ts = lvls.map (fun p => (p, s.name)) := by
  induction lvls with
  | nil => rfl
  | cons a as ih =>
    have hp := h a (List.mem_cons_self a as)
    have hstep : levelResults [s] (a :: as) t ts
        = (a, s.name) :: levelResults [s] as t ts := by
      rw [levelResults, List.filterMap_cons]
      have hprofs : levelProfits [s] a t ts = [(s.name, strategyProfit s a t ts)] := rfl
      simp only [hprofs]
      have hmax : maxOfProfits [(s.name, strategyProfit s a t ts)]
          = strategyProfit s a t ts := rfl
      rw [hmax, if_neg (not_le.mpr hp), pickWinner_single]
      rfl
    rw [hstep, List.map_cons, ih (fun p hp => h p (List.mem_cons_of_mem a hp))]

theorem mergeGo_const (w : String) :
    ∀ (lvls : List ℚ) (cur : MSeg), cur.winner = w →
      mergeGo cur (lvls.map (fun p => (p, w)))
        = [⟨cur.highPrice, lvls.getLastD cur.lowPrice, w⟩] := by
  intro lvls
  induction lvls with
  | nil =>
    intro cur hcur
    rw [List.map_nil]
    show [cur] = [⟨cur.highPrice, cur.lowPrice, w⟩]
    rw [← hcur]
  | cons a as ih =>
    intro cur hcur
    rw [List.map_cons]
    show mergeGo cur ((a, w) :: as.map (fun p => (p, w)))
      = [⟨cur.highPrice, (a :: as).getLastD cur.lowPrice, w⟩]
    rw [mergeGo, if_pos hcur.symm]
    rw [ih { cur with lowPrice := a } hcur]
    rw [List.getLastD_cons]

theorem foldl_bump_const (w : String) :
    ∀ (lvls : List ℚ) (c : Nat),
      (lvls.map (fun p => (p, w))).foldl (fun m lr => bumpCount m lr.2) [(w, c)]
        = [(w, c + lvls.length)] := by
  intro lvls
  induction lvls with
  | nil => intro c; simp
  | cons a as ih =>
    intro c
    rw [List.map_cons, List.foldl_cons]
    have hb : bumpCount [(w, c)] w = [(w, c + 1)] := by
      rw [bumpCount, if_pos rfl]
    rw [hb, ih (c + 1)]
    congr 2
    simp
    omega

theorem winCounts_const (w : String) (lvls : List ℚ) (h : lvls ≠ []) :
    winCounts (lvls.map (fun p => (p, w))) = [(w, lvls.length)] := by
  cases lvls with
  | nil => exact absurd rfl h
  | cons a as =>
    rw [List.map_cons, winCounts, List.foldl_cons]
    have hb : bumpCount [] w = [(w, 1)] := rfl
    rw [hb, foldl_bump_const w as 1]
    congr 1
    simp
    omega

theorem idxOf_getLast_strict :
    ∀ (l : List ℚ) (h : l ≠ []), l.Pairwise (fun a b => b < a) →
      idxOf (l.getLast h) l = l.length - 1 := by
  intro l
  induction l with
  | nil => intro h; exact absurd rfl h
  | cons a as ih =>
    intro h hp
    cases as with
    | nil => simp [List.getLast, idxOf]
    | cons b bs =>
      rw [List.pairwise_cons] at hp
      have hmem : (b :: bs).getLast (List.cons_ne_nil b bs) ∈ b :: bs :=
        List.getLast_mem (List.cons_ne_nil b bs)
      have hne : a ≠ (b :: bs).getLast (List.cons_ne_nil b bs) :=
        ne_of_gt (hp.1 _ hmem)
      rw [List.getLast_cons (List.cons_ne_nil b bs), idxOf, if_neg hne]
      rw [ih (List.cons_ne_nil b bs) hp.2]
      simp

theorem activeLevelsOf_strict_of_nodup (priceLevels : List ℚ)
    (hnodup : (activeLevelsOf priceLevels).Nodup) :
    (activeLevelsOf priceLevels).Pairwise (fun a b => b < a) :=
  ((activeLevelsOf_pairwise priceLevels).and hnodup).imp
    (fun h => lt_of_le_of_ne h.1 h.2.symm)

theorem toSegments_singleton (ms : MSeg) :
    toSegments [ms] = [⟨ms.highPrice, ms.lowPrice, true, ms.winner⟩] := rfl

theorem getLastD_eq_getLast (l : List ℚ) (h : l ≠ []) (d : ℚ) :
    l.getLastD d = l.getLast h := by
  cases l with
  | nil => exact absurd rfl h
  | cons a as => rw [List.getLast_eq_getLastD, List.getLastD_cons]

/-- C3 (amended).  With a single strategy whose name is non-empty, when
every active level is profitable (`profit > 0`), the active levels are
distinct, the top active level is at least the sweep maximum, and the sweep
range is well-formed (`bottomMin ≤ bottomMax`, `bottomStep > 0`), the
non-null result has that strategy winning every segment and
`coveragePct = 100`. -/
theorem C3_single_strategy (s : ComparableStrategy) (priceLevels : List ℚ)
    (targetPrice totalSize bottomMin bottomMax bottomStep : ℚ)
    (hact : activeLevelsOf priceLevels ≠ [])
    (hnodup : (activeLevelsOf priceLevels).Nodup)
    (hprof : ∀ p ∈ activeLevelsOf priceLevels,
      0 < strategyProfit s p targetPrice totalSize)
    (hname : s.name ≠ "")
    (hhigh : bottomMax ≤ (activeLevelsOf priceLevels).headD 0)
    (hminmax : bottomMin ≤ bottomMax)
    (hstep : 0 < bottomStep) :
    ∃ advice, analyzeStrategyAdvice [s] priceLevels targetPrice totalSize
        bottomMin bottomMax bottomStep = some advice ∧
      (∀ seg ∈ advice.segments, seg.winner = s.name) ∧
      advice.coveragePct = 100 := by
  have hlrs : levelResults [s] (activeLevelsOf priceLevels) targetPrice totalSize
      = (activeLevelsOf priceLevels).map (fun p => (p, s.name)) :=
    levelResults_single s _ targetPrice totalSize hprof
  have hms : mergeSegs (levelResults [s] (activeLevelsOf priceLevels)
      targetPrice totalSize)
      = [⟨(activeLevelsOf priceLevels).headD 0,
          (activeLevelsOf priceLevels).getLastD 0, s.name⟩] := by
    rw [hlrs]
    obtain ⟨p1, rest, hal⟩ := List.exists_cons_of_ne_nil hact
    rw [hal, List.map_cons]
    have hstep1 : mergeSegs ((p1, s.name) :: rest.map (fun p => (p, s.name)))
        = mergeGo ⟨p1, p1, s.name⟩ (rest.map (fun p => (p, s.name))) := rfl
    rw [hstep1, mergeGo_const s.name rest ⟨p1, p1, s.name⟩ rfl]
    rw [List.headD_cons, List.getLastD_cons]
  have hwc : winCounts (levelResults [s] (activeLevelsOf priceLevels)
      targetPrice totalSize)
      = [(s.name, (activeLevelsOf priceLevels).length)] := by
    rw [hlrs]
    exact winCounts_const s.name _ hact
  have hbo : bestOf [(s.name, (activeLevelsOf priceLevels).length)]
      = (s.name, (activeLevelsOf priceLevels).length) := by
    rw [bestOf]
    rw [List.foldl_cons, List.foldl_nil]
    rw [if_pos (List.length_pos.mpr hact)]
  have hT0 : (0 : ℚ) ≤ (bottomMax - bottomMin) / bottomStep :=
    div_nonneg (by linarith) (le_of_lt hstep)
  have hT : (bottomMax - bottomMin) / bottomStep + 1 ≠ 0 := by
    intro hc
    linarith
  have hidx : idxOf ((activeLevelsOf priceLevels).getLastD 0)
      (activeLevelsOf priceLevels)
      = (activeLevelsOf priceLevels).length - 1 := by
    rw [getLastD_eq_getLast _ hact 0]
    exact idxOf_getLast_strict _ hact (activeLevelsOf_strict_of_nodup _ hnodup)
  have hsegcov : segCoverage (activeLevelsOf priceLevels)
      bottomMin bottomMax bottomStep
      ⟨(activeLevelsOf priceLevels).headD 0,
        (activeLevelsOf priceLevels).getLastD 0, s.name⟩
      = (bottomMax - bottomMin) / bottomStep + 1 := by
    simp only [segCoverage]
    rw [if_pos hidx]
    rw [min_eq_right hhigh, max_self]
    refine max_eq_right ?_
    linarith
  refine ⟨_, analyzeStrategyAdvice_eq_some (List.cons_ne_nil s []) hact, ?_, ?_⟩
  · intro seg hseg
    have hseg' : seg ∈ toSegments (mergeSegs (levelResults [s]
        (activeLevelsOf priceLevels) targetPrice totalSize)) := hseg
    rw [hms, toSegments_singleton] at hseg'
    rcases List.mem_singleton.mp hseg' with rfl
    rfl
  · show coveragePctOf (activeLevelsOf priceLevels)
      (mergeSegs (levelResults [s] (activeLevelsOf priceLevels)
        targetPrice totalSize))
      (bestOf (winCounts (levelResults [s] (activeLevelsOf priceLevels)
        targetPrice totalSize))).1 bottomMin bottomMax bottomStep = 100
    rw [hms, hwc, hbo]
    rw [coveragePctOf, if_neg hname]
    have hfil : ([⟨(activeLevelsOf priceLevels).headD 0,
        (activeLevelsOf priceLevels).getLastD 0, s.name⟩] : List MSeg).filter
        (fun sg => decide (sg.winner = s.name))
        = [⟨(activeLevelsOf priceLevels).headD 0,
            (activeLevelsOf priceLevels).getLastD 0, s.name⟩] := by
      simp
    simp only [hfil, List.map_cons, List.map_nil, List.sum_cons, List.sum_nil,
      add_zero, hsegcov]
    rw [div_self hT, one_mul]
    norm_num [jsRound, Int.floor_eq_iff]

theorem C3_counterexample :
    analyzeStrategyAdvice [⟨"solo", [⟨90, 1⟩]⟩] [90] 50 1000 50 90 1
      = some ⟨90, [], none, 0⟩ := by
  norm_num [analyzeStrategyAdvice, activeLevelsOf, sortDesc, insertDesc,
    levelResults, levelProfits, strategyProfit, calculatePositionStats,
    filledLevels, maxOfProfits, pickWinner, mergeSegs, mergeGo, winCounts,
    bumpCount, bestOf, toSegments, List.enum, List.enumFrom, coveragePctOf,
    segCoverage, idxOf, jsRound, List.filter, List.filterMap, List.find?,
    max_def, min_def]

theorem C3_single_strategy_witness :
    ∃ advice, analyzeStrategyAdvice [⟨"uniform", [⟨90, 1/2⟩, ⟨70, 1/2⟩]⟩]
        [90, 70] 100 1000 50 90 1 = some advice ∧
      (∀ seg ∈ advice.segments,
        seg.winner = (⟨"uniform", [⟨90, 1/2⟩, ⟨70, 1/2⟩]⟩ : ComparableStrategy).name) ∧
      advice.coveragePct = 100 := by
  have hal : activeLevelsOf [90, 70] = [90, 70] := by
    norm_num [activeLevelsOf, sortDesc, insertDesc, List.filter]
  exact C3_single_strategy ⟨"uniform", [⟨90, 1/2⟩, ⟨70, 1/2⟩]⟩ [90, 70]
    100 1000 50 90 1
    (by rw [hal]; simp)
    (by rw [hal]; norm_num)
    (by
      rw [hal]
      intro p hp
      rcases List.mem_cons.mp hp with rfl | hp
      · norm_num [strategyProfit, calculatePositionStats, filledLevels, List.filter]
      · rcases List.mem_singleton.mp hp with rfl
        norm_num [strategyProfit, calculatePositionStats, filledLevels, List.filter])
    (by simp)
    (by rw [hal]; norm_num)
    (by norm_num)
    (by norm_num)

theorem C8_weight_sums_witness :
    (generatePresetWeights 3).pyramid.sum = 1 ∧
    (generatePresetWeights 3).uniform.sum = 1 ∧
    (generatePresetWeights 3).inverted.sum = 1 ∧
    (generateExponentialWeights 3).sum = 1 :=
  ⟨(C8_weight_sums 3 (by norm_num)).1,
   (C8_weight_sums 3 (by norm_num)).2.1,
   (C8_weight_sums 3 (by norm_num)).2.2.1,
   (C8_weight_sums 3 (by norm_num)).2.2.2.1⟩
